import Mathlib

/-!
Verification development for the stream-ingestion readers of `barf_client`
(`host_backend/uart_reader.py` and `host_backend/i2c_reader.py`, which are
structurally identical).  The Python code is embedded shallowly:

* the agent queue (`asyncio.Queue(maxsize = N)`) together with the tee block
  of `_run` (drop oldest when full, then `put_nowait`) becomes `push`;
* `drain(wait_seconds)` becomes `drain`, with the events that arrive during
  the optional wait passed explicitly as a list;
* the line framer inside `_run` (the per-chunk
  `decode("utf-8", errors="replace")`, accumulator `partial`, the
  `partition`-based splitting loop, `rstrip`, the `data:` prefix handling
  and the empty-line filter) becomes `utf8Decode` on byte lists together
  with `extractStep` / `extractLoop` / `processLine` / `feed` on
  `List Char`, combined in `feedAllBytes`;
* the listener registry (`add_listener` / `remove_listener` and the
  broadcast loop) becomes a small transition system `RegOp` / `regRun`;
* the connector life cycle (`ensure_running`, `stop`, the reconnect loop of
  `_run` and its exception handler) becomes the labelled transition system
  `RLabel` / `RStep` over `RState`, plus the functions `ensure_running`,
  `handleExc`, `is_running` and `diag_task_running`.
-/

namespace BarfClient

/-! ## Relay Buffer: the agent queue

`asyncio.Queue` with `maxsize = N` stores items FIFO: `get_nowait` removes
the front (oldest), `put_nowait` appends at the back, `full()` is
`0 < maxsize ∧ maxsize ≤ qsize`.  The queue contents are modelled as a
`List String` whose head is the oldest entry. -/

/-- `full()` of `asyncio.Queue`: false for `maxsize = 0` (unbounded),
otherwise `qsize ≥ maxsize`. -/
def queueFull (N : ℕ) (q : List String) : Bool :=
  0 < N && N ≤ q.length

/-- The tee block of `_run` (uart_reader.py lines 130-139): if the agent
queue is full, `get_nowait` one oldest entry, then `put_nowait` the new
line (dropped if the queue is somehow full again). -/
def push (N : ℕ) (q : List String) (x : String) : List String :=
  let q1 := if queueFull N q then q.tail else q
  if queueFull N q1 then q1 else q1 ++ [x]

/-- The final `while not empty: get_nowait` loop of `drain`: takes every
buffered line, front (oldest) first. -/
def drainRest : List String → List String
  | [] => []
  | x :: xs => x :: drainRest xs

/-- `UartReader.drain(wait_seconds)` (uart_reader.py lines 157-182).
`arrivals` are the lines put into the empty queue during the optional
wait, in arrival order: if none arrive the `asyncio.TimeoutError` is
caught and the drain loop runs on the still-empty queue.  Returns the
drained lines and the queue contents afterwards. -/
def drain (waitSeconds : ℚ) (q : List String) (arrivals : List String) :
    List String × List String :=
  if q.isEmpty && decide (0 < waitSeconds) then
    match arrivals with
    | [] => ([], [])
    | a :: rest => (a :: drainRest rest, [])
  else
    (drainRest q, [])

theorem drainRest_eq (q : List String) : drainRest q = q := by
  induction q with
  | nil => rfl
  | cons x xs ih => simp [drainRest, ih]

theorem push_of_lt (N : ℕ) (q : List String) (x : String)
    (h : q.length < N) : push N q x = q ++ [x] := by
  have h1 : queueFull N q = false := by
    simp only [queueFull, Bool.and_eq_false_iff, decide_eq_false_iff_not]
    omega
  simp [push, h1]

theorem push_of_full (N : ℕ) (q : List String) (x : String)
    (hn : 0 < N) (h : q.length = N) : push N q x = q.tail ++ [x] := by
  have h1 : queueFull N q = true := by
    simp only [queueFull, Bool.and_eq_true, decide_eq_true_eq]
    omega
  have h2 : queueFull N q.tail = false := by
    simp only [queueFull, Bool.and_eq_false_iff, decide_eq_false_iff_not,
      List.length_tail]
    omega
  simp [push, h1, h2]

theorem push_length_le (N : ℕ) (q : List String) (x : String)
    (hn : 0 < N) (h : q.length ≤ N) : (push N q x).length ≤ N := by
  by_cases hlt : q.length < N
  · rw [push_of_lt N q x hlt]
    simp
    omega
  · have hq : q.length = N := by omega
    rw [push_of_full N q x hn hq]
    simp [List.length_tail]
    omega

theorem pushAll_length_le (N : ℕ) (hn : 0 < N) (p : List String) :
    (p.foldl (push N) []).length ≤ N := by
  suffices h : ∀ q : List String, q.length ≤ N →
      (p.foldl (push N) q).length ≤ N by
    exact h [] (by simp)
  induction p with
  | nil => intro q hq; simpa using hq
  | cons x xs ih =>
    intro q hq
    rw [List.foldl_cons]
    exact ih (push N q x) (push_length_le N q x hn hq)

theorem pushAll_eq_suffix (N : ℕ) (hn : 0 < N) (xs : List String) :
    xs.foldl (push N) [] = xs.drop (xs.length - N) := by
  induction xs using List.reverseRecOn with
  | nil => simp
  | append_singleton ys y ih =>
    rw [List.foldl_append, List.foldl_cons, List.foldl_nil, ih]
    by_cases h : ys.length < N
    · have h1 : ys.length - N = 0 := by omega
      have h2 : (ys ++ [y]).length - N = 0 := by simp; omega
      rw [h1, h2, List.drop_zero, List.drop_zero]
      unfold push queueFull
      have : ¬ (N ≤ ys.length) := by omega
      simp [this, hn]
    · push_neg at h
      have hlen : (ys.drop (ys.length - N)).length = N := by
        simp; omega
      rw [push_of_full N _ y hn hlen]
      have h2 : (ys ++ [y]).length - N = ys.length - N + 1 := by
        simp; omega
      rw [h2]
      rw [List.drop_append_of_le_length (by omega)]
      rw [List.tail_drop]

/-- C1.  For every sequence of pushes into the relay buffer of capacity
`N > 0` starting from empty: (a) the buffer length never exceeds `N` after
any prefix of the pushes; (b) a push onto a full buffer removes exactly
the single oldest entry and then appends the new one at the back; (c) if
more than `N` lines were pushed, an immediate drain returns exactly the
last `N` pushed lines in push order and leaves the buffer empty. -/
theorem relay_buffer_capacity_and_lastN (N : ℕ) (hn : 0 < N)
    (xs : List String) :
    (∀ p : List String, p <+: xs → (p.foldl (push N) []).length ≤ N) ∧
    (∀ (q : List String) (x : String), q.length = N →
      push N q x = q.tail ++ [x]) ∧
    (N < xs.length →
      drain 0 (xs.foldl (push N) []) [] =
        (xs.drop (xs.length - N), [])) := by
  refine ⟨?_, ?_, ?_⟩
  · intro p _
    exact pushAll_length_le N hn p
  · intro q x hq
    exact push_of_full N q x hn hq
  · intro hgt
    rw [pushAll_eq_suffix N hn xs]
    unfold drain
    simp [drainRest_eq]

/-- Closed instance of C1: capacity 2, three pushes, drain returns the last
two lines in push order. -/
theorem relay_buffer_capacity_and_lastN_witness :
    drain 0 ((["a", "b", "c"] : List String).foldl (push 2) []) [] =
      (["b", "c"], []) := by
  have h := (relay_buffer_capacity_and_lastN 2 (by decide)
    ["a", "b", "c"]).2.2 (by decide)
  simpa using h

/-- C2.  `drain`: on a non-empty buffer it returns all buffered lines,
oldest first, and empties the buffer, ignoring the wait; on an empty
buffer with positive wait it returns exactly the lines that arrived
during the wait (possibly none — a timeout yields the empty list, not an
error) and leaves the buffer empty; `drain 0` on an empty buffer returns
the empty list immediately, never consulting any later arrivals; in every
case `drain` returns a plain list, never an error. -/
theorem drain_contract (w : ℚ) (q arrivals : List String) :
    (q ≠ [] → drain w q arrivals = (q, [])) ∧
    (q = [] → 0 < w → drain w q arrivals = (arrivals, [])) ∧
    (drain 0 q arrivals = (q, [])) := by
  refine ⟨?_, ?_, ?_⟩
  · intro hq
    unfold drain
    have : q.isEmpty = false := by
      cases q with
      | nil => simp at hq
      | cons a as => rfl
    simp [this, drainRest_eq]
  · intro hq hw
    subst hq
    unfold drain
    cases arrivals with
    | nil => simp [hw]
    | cons a rest => simp [hw, drainRest_eq]
  · unfold drain
    simp [drainRest_eq]

/-- Closed instance of C2: a positive-wait drain of an empty buffer
returns exactly the one line that arrived during the wait. -/
theorem drain_contract_witness : drain 1 [] ["y"] = (["y"], []) :=
  (drain_contract 1 [] ["y"]).2.1 rfl (by norm_num)

/-! ## Framer

The framer of `_run` (uart_reader.py lines 100-124, identically
i2c_reader.py lines 97-120) keeps an accumulator `partial` of decoded
characters.  Whenever the accumulator contains a newline or a carriage
return it extracts one line: `partial.partition("\n")` cuts at the first
newline; only when the accumulator contains no newline at all does
`partial.partition("\r")` cut at the first carriage return.  The extracted
line is `rstrip`-ped of trailing CR/LF, a leading `data:` token is removed
together with following whitespace, and empty lines are dropped. -/

/-- Characters treated as line terminators (`"\r\n"` of the `rstrip`). -/
def isTermChar (c : Char) : Bool := c = '\n' || c = '\r'

/-- `s.partition(t)` restricted to the found case: the part strictly
before the first occurrence of `t` and the part strictly after it;
`none` when `t` does not occur. -/
def splitAtFirst (t : Char) : List Char → Option (List Char × List Char)
  | [] => none
  | c :: cs =>
    if c = t then some ([], cs)
    else
      match splitAtFirst t cs with
      | none => none
      | some (l, r) => some (c :: l, r)

/-- One iteration of the splitting loop: `partition("\n")`, falling back
to `partition("\r")` only when no newline is present; `none` when the
loop guard (`"\n" in partial or "\r" in partial`) fails. -/
def extractStep (p : List Char) : Option (List Char × List Char) :=
  if '\n' ∈ p then splitAtFirst '\n' p
  else if '\r' ∈ p then splitAtFirst '\r' p
  else none

/-- The splitting loop, with explicit fuel (each iteration strictly
shrinks the accumulator, so `p.length` fuel always suffices).  Returns
the extracted raw lines in order and the final accumulator. -/
def extractLoopF : ℕ → List Char → List (List Char) × List Char
  | 0, p => ([], p)
  | fuel + 1, p =>
    match extractStep p with
    | none => ([], p)
    | some (l, r) =>
      let res := extractLoopF fuel r
      (l :: res.1, res.2)

/-- The splitting loop of `_run`: extract lines while a terminator
remains in the accumulator. -/
def extractLoop (p : List Char) : List (List Char) × List Char :=
  extractLoopF p.length p

/-- Python `str.isspace` on the ASCII range, as used by `lstrip()`. -/
def isPySpace (c : Char) : Bool :=
  c = ' ' || c = '\t' || c = '\n' || c = '\r' ||
    c = Char.ofNat 11 || c = Char.ofNat 12

/-- `line.rstrip("\r\n")`: remove every trailing CR or LF. -/
def rstripTerm (l : List Char) : List Char :=
  (l.reverse.dropWhile isTermChar).reverse

/-- The SSE event-prefix token `"data:"`. -/
def dataPrefix : List Char := ['d', 'a', 't', 'a', ':']

/-- The `data:` prefix handling of `_run`: when the line starts with the
token, `line = line[5:].lstrip()`. -/
def stripData (l : List Char) : List Char :=
  if dataPrefix.isPrefixOf l then (l.drop 5).dropWhile isPySpace else l

/-- Per-line processing of `_run`: `rstrip("\r\n")`, strip a leading
`data:` token plus following whitespace (`line[5:].lstrip()`), and drop
the line entirely when the result is empty. -/
def processLine (raw : List Char) : Option (List Char) :=
  if (stripData (rstripTerm raw)).isEmpty then none
  else some (stripData (rstripTerm raw))

/-- Feeding one decoded chunk to the framer: append to the accumulator,
run the splitting loop, process each raw line.  Returns the emitted
events and the new accumulator. -/
def feed (p chunk : List Char) : List (List Char) × List Char :=
  let er := extractLoop (p ++ chunk)
  (er.1.filterMap processLine, er.2)

/-- Feeding a sequence of decoded chunks, threading the accumulator. -/
def feedAll : List Char → List (List Char) → List (List Char) × List Char
  | p, [] => ([], p)
  | p, c :: cs =>
    let f := feed p c
    let rest := feedAll f.2 cs
    (f.1 ++ rest.1, rest.2)

/-- The replacement character `U+FFFD` substituted by
`decode("utf-8", errors="replace")` for each maximal invalid subpart. -/
def replChar : Char := Char.ofNat 0xFFFD

/-- A UTF-8 continuation byte `80–BF`. -/
def isCont (b : ℕ) : Bool := 0x80 ≤ b && b ≤ 0xBF

/-- `bytes.decode("utf-8", errors="replace")` with explicit fuel (one
unit per decoded character; the byte count always suffices).  Valid
sequences follow RFC 3629 (no overlong forms, no surrogates, at most
`U+10FFFF`); each maximal subpart of an ill-formed sequence — a stray
byte, or a valid prefix truncated by a non-continuation byte or by the
end of the chunk — becomes one `U+FFFD`, as CPython substitutes. -/
def utf8DecodeF : ℕ → List ℕ → List Char
  | 0, _ => []
  | _ + 1, [] => []
  | fuel + 1, b :: rest =>
    if b < 0x80 then
      Char.ofNat b :: utf8DecodeF fuel rest
    else if 0xC2 ≤ b ∧ b ≤ 0xDF then
      match rest with
      | [] => [replChar]
      | b2 :: rest2 =>
        if isCont b2 then
          Char.ofNat ((b - 0xC0) * 0x40 + (b2 - 0x80)) ::
            utf8DecodeF fuel rest2
        else
          replChar :: utf8DecodeF fuel (b2 :: rest2)
    else if 0xE0 ≤ b ∧ b ≤ 0xEF then
      match rest with
      | [] => [replChar]
      | b2 :: rest2 =>
        if (b = 0xE0 ∧ 0xA0 ≤ b2 ∧ b2 ≤ 0xBF) ∨
            (b = 0xED ∧ 0x80 ≤ b2 ∧ b2 ≤ 0x9F) ∨
            (b ≠ 0xE0 ∧ b ≠ 0xED ∧ isCont b2 = true) then
          match rest2 with
          | [] => [replChar]
          | b3 :: rest3 =>
            if isCont b3 then
              Char.ofNat
                  ((b - 0xE0) * 0x1000 + (b2 - 0x80) * 0x40 + (b3 - 0x80)) ::
                utf8DecodeF fuel rest3
            else
              replChar :: utf8DecodeF fuel (b3 :: rest3)
        else
          replChar :: utf8DecodeF fuel (b2 :: rest2)
    else if 0xF0 ≤ b ∧ b ≤ 0xF4 then
      match rest with
      | [] => [replChar]
      | b2 :: rest2 =>
        if (b = 0xF0 ∧ 0x90 ≤ b2 ∧ b2 ≤ 0xBF) ∨
            (b = 0xF4 ∧ 0x80 ≤ b2 ∧ b2 ≤ 0x8F) ∨
            (b ≠ 0xF0 ∧ b ≠ 0xF4 ∧ isCont b2 = true) then
          match rest2 with
          | [] => [replChar]
          | b3 :: rest3 =>
            if isCont b3 then
              match rest3 with
              | [] => [replChar]
              | b4 :: rest4 =>
                if isCont b4 then
                  Char.ofNat
                      ((b - 0xF0) * 0x40000 + (b2 - 0x80) * 0x1000 +
                        (b3 - 0x80) * 0x40 + (b4 - 0x80)) ::
                    utf8DecodeF fuel rest4
                else
                  replChar :: utf8DecodeF fuel (b4 :: rest4)
            else
              replChar :: utf8DecodeF fuel (b3 :: rest3)
        else
          replChar :: utf8DecodeF fuel (b2 :: rest2)
    else
      replChar :: utf8DecodeF fuel rest

/-- Decoding one received chunk, as `raw.decode("utf-8",
errors="replace")` does on uart_reader.py line 109 (identically
i2c_reader.py line 106).  Each chunk is decoded separately, so a
multi-byte sequence split across chunks is not reassembled. -/
def utf8Decode (bs : List ℕ) : List Char :=
  utf8DecodeF bs.length bs

/-- Feeding the raw byte chunks as `_run` receives them: every chunk is
decoded on its own (line 109) and the decoded text is appended to the
accumulator and framed. -/
def feedAllBytes (p : List Char) (chunks : List (List ℕ)) :
    List (List Char) × List Char :=
  feedAll p (chunks.map utf8Decode)

theorem splitAtFirst_eq_none_iff {t : Char} {p : List Char} :
    splitAtFirst t p = none ↔ t ∉ p := by
  induction p with
  | nil => simp [splitAtFirst]
  | cons c cs ih =>
    by_cases hc : c = t
    · subst hc; simp [splitAtFirst]
    · cases hs : splitAtFirst t cs with
      | none =>
        have hn := ih.mp hs
        simp [splitAtFirst, hc, hs, hn, Ne.symm hc]
      | some lr =>
        obtain ⟨l', r'⟩ := lr
        have hmem : t ∈ cs := by
          by_contra hn
          rw [ih.mpr hn] at hs
          exact absurd hs (by simp)
        simp [splitAtFirst, hc, hs, hmem]

theorem splitAtFirst_eq_some_iff {t : Char} {p l r : List Char} :
    splitAtFirst t p = some (l, r) ↔ p = l ++ t :: r ∧ t ∉ l := by
  induction p generalizing l r with
  | nil =>
    constructor
    · intro h; exact absurd h (by simp [splitAtFirst])
    · rintro ⟨h, -⟩; exact absurd h (by simp)
  | cons c cs ih =>
    by_cases hc : c = t
    · subst hc
      simp only [splitAtFirst, if_pos rfl]
      constructor
      · intro h
        simp only [Option.some.injEq, Prod.mk.injEq] at h
        obtain ⟨rfl, rfl⟩ := h
        simp
      · rintro ⟨heq, hnot⟩
        cases l with
        | nil =>
          simp only [List.nil_append, List.cons.injEq] at heq
          simp [heq.2]
        | cons d ds =>
          simp only [List.cons_append, List.cons.injEq] at heq
          exact absurd (heq.1 ▸ List.mem_cons_self c ds) hnot
    · simp only [splitAtFirst, if_neg hc]
      constructor
      · intro h
        cases hs : splitAtFirst t cs with
        | none => rw [hs] at h; exact absurd h (by simp)
        | some lr =>
          obtain ⟨l', r'⟩ := lr
          rw [hs] at h
          simp only [Option.some.injEq, Prod.mk.injEq] at h
          obtain ⟨h1, rfl⟩ := h
          have hcs := (ih (l := l')).mp hs
          subst h1
          refine ⟨?_, ?_⟩
          · rw [hcs.1]; simp
          · simp only [List.mem_cons, not_or]
            exact ⟨Ne.symm hc, hcs.2⟩
      · rintro ⟨heq, hnot⟩
        cases l with
        | nil =>
          simp only [List.nil_append, List.cons.injEq] at heq
          exact absurd heq.1 hc
        | cons d ds =>
          simp only [List.cons_append, List.cons.injEq] at heq
          simp only [List.mem_cons, not_or] at hnot
          have hds := (ih (l := ds) (r := r)).mpr ⟨heq.2, hnot.2⟩
          rw [hds, heq.1]

theorem extractStep_eq_none_iff {p : List Char} :
    extractStep p = none ↔ '\n' ∉ p ∧ '\r' ∉ p := by
  unfold extractStep
  by_cases h1 : '\n' ∈ p
  · rw [if_pos h1]
    constructor
    · intro h
      exact absurd h1 (splitAtFirst_eq_none_iff.mp h)
    · rintro ⟨hn, -⟩; exact absurd h1 hn
  · rw [if_neg h1]
    by_cases h2 : '\r' ∈ p
    · rw [if_pos h2]
      constructor
      · intro h
        exact absurd h2 (splitAtFirst_eq_none_iff.mp h)
      · rintro ⟨-, hr⟩; exact absurd h2 hr
    · simp [h1, h2]

theorem extractStep_some_length {p l r : List Char}
    (h : extractStep p = some (l, r)) : r.length < p.length := by
  unfold extractStep at h
  by_cases h1 : '\n' ∈ p
  · rw [if_pos h1] at h
    have := (splitAtFirst_eq_some_iff.mp h).1
    rw [this]
    simp
    omega
  · rw [if_neg h1] at h
    by_cases h2 : '\r' ∈ p
    · rw [if_pos h2] at h
      have := (splitAtFirst_eq_some_iff.mp h).1
      rw [this]
      simp
      omega
    · rw [if_neg h2] at h
      exact absurd h (by simp)

theorem extractLoopF_of_none {fuel : ℕ} {p : List Char}
    (h : extractStep p = none) : extractLoopF fuel p = ([], p) := by
  cases fuel with
  | zero => rfl
  | succ f => simp [extractLoopF, h]

theorem extractLoopF_fuel_eq (fuel : ℕ) (p : List Char)
    (h : p.length ≤ fuel) : extractLoopF fuel p = extractLoop p := by
  unfold extractLoop
  induction fuel using Nat.strong_induction_on generalizing p with
  | _ fuel ih =>
    cases fuel with
    | zero =>
      have : p.length = 0 := by omega
      rw [this]
    | succ f =>
      cases hs : extractStep p with
      | none => rw [extractLoopF_of_none hs, extractLoopF_of_none hs]
      | some lr =>
        obtain ⟨l, r⟩ := lr
        have hr : r.length < p.length := extractStep_some_length hs
        cases hp : p with
        | nil =>
          rw [hp] at hs
          have : extractStep ([] : List Char) = none := by
            rw [extractStep_eq_none_iff]; simp
          rw [this] at hs
          exact absurd hs (by simp)
        | cons a p' =>
          rw [← hp]
          have hlen : p.length = p'.length + 1 := by rw [hp]; simp
          rw [hlen]
          simp only [extractLoopF, hs]
          have hr1 : r.length ≤ f := by omega
          have hr2 : r.length ≤ p'.length := by omega
          rw [ih f (by omega) r hr1, ih p'.length (by omega) r hr2]

theorem extractLoop_of_none {p : List Char}
    (h : extractStep p = none) : extractLoop p = ([], p) :=
  extractLoopF_of_none h

theorem extractLoop_of_some {p l r : List Char}
    (h : extractStep p = some (l, r)) :
    extractLoop p = (l :: (extractLoop r).1, (extractLoop r).2) := by
  have hr : r.length < p.length := extractStep_some_length h
  cases hp : p with
  | nil =>
    rw [hp] at h
    have : extractStep ([] : List Char) = none := by
      rw [extractStep_eq_none_iff]; simp
    rw [this] at h
    exact absurd h (by simp)
  | cons a p' =>
    rw [← hp]
    unfold extractLoop
    have hlen : p.length = p'.length + 1 := by rw [hp]; simp
    rw [hlen]
    simp only [extractLoopF, h]
    rw [extractLoopF_fuel_eq p'.length r (by omega)]
    rfl

/-- After the splitting loop finishes, the accumulator contains no
terminator (the loop guard failed). -/
theorem extractLoop_leftover_no_term (p : List Char) :
    '\n' ∉ (extractLoop p).2 ∧ '\r' ∉ (extractLoop p).2 := by
  suffices h : ∀ (n : ℕ) (q : List Char), q.length ≤ n →
      '\n' ∉ (extractLoop q).2 ∧ '\r' ∉ (extractLoop q).2 by
    exact h p.length p le_rfl
  intro n
  induction n with
  | zero =>
    intro q hq
    have : q = [] := by
      cases q with
      | nil => rfl
      | cons a as => simp at hq
    subst this
    rw [extractLoop_of_none (extractStep_eq_none_iff.mpr (by simp))]
    simp
  | succ m ih =>
    intro q hq
    cases hs : extractStep q with
    | none =>
      rw [extractLoop_of_none hs]
      exact extractStep_eq_none_iff.mp hs
    | some lr =>
      obtain ⟨l, r⟩ := lr
      rw [extractLoop_of_some hs]
      have hr : r.length < q.length := extractStep_some_length hs
      exact ih r (by omega)

/-- On carriage-return-free input the splitting loop is compositional:
extracting from `p ++ q` first exhausts `p`, then continues on the
leftover of `p` followed by `q`. -/
theorem extractLoop_append (p q : List Char) (hp : '\r' ∉ p ++ q) :
    extractLoop (p ++ q) =
      ((extractLoop p).1 ++ (extractLoop ((extractLoop p).2 ++ q)).1,
       (extractLoop ((extractLoop p).2 ++ q)).2) := by
  suffices h : ∀ (n : ℕ) (p : List Char), p.length ≤ n → '\r' ∉ p ++ q →
      extractLoop (p ++ q) =
        ((extractLoop p).1 ++ (extractLoop ((extractLoop p).2 ++ q)).1,
         (extractLoop ((extractLoop p).2 ++ q)).2) by
    exact h p.length p le_rfl hp
  intro n
  induction n with
  | zero =>
    intro p hlen hcr
    have hpnil : p = [] := by
      cases p with
      | nil => rfl
      | cons a as => simp at hlen
    subst hpnil
    rw [show extractLoop ([] : List Char) = ([], []) from
      extractLoop_of_none (extractStep_eq_none_iff.mpr (by simp))]
    simp
  | succ m ih =>
    intro p hlen hcr
    have hcrp : '\r' ∉ p := fun hm => hcr (List.mem_append_left q hm)
    cases hs : extractStep p with
    | none =>
      rw [extractLoop_of_none hs]
      simp
    | some lr =>
      obtain ⟨l, r⟩ := lr
      -- since p is CR-free, the step must be the newline branch
      have hn : '\n' ∈ p := by
        by_contra hnn
        rw [extractStep_eq_none_iff.mpr ⟨hnn, hcrp⟩] at hs
        exact absurd hs (by simp)
      have hsplit : splitAtFirst '\n' p = some (l, r) := by
        rw [extractStep] at hs
        rwa [if_pos hn] at hs
      obtain ⟨hpeq, hnl⟩ := splitAtFirst_eq_some_iff.mp hsplit
      -- the same first newline is found in p ++ q
      have hsplit2 : splitAtFirst '\n' (p ++ q) = some (l, r ++ q) := by
        rw [splitAtFirst_eq_some_iff]
        constructor
        · rw [hpeq]; simp
        · exact hnl
      have hs2 : extractStep (p ++ q) = some (l, r ++ q) := by
        rw [extractStep, if_pos (List.mem_append_left q hn)]
        exact hsplit2
      rw [extractLoop_of_some hs2, extractLoop_of_some hs]
      have hrlen : r.length ≤ m := by
        have := extractStep_some_length hs
        omega
      have hcrr : '\r' ∉ r ++ q := by
        intro hm
        rcases List.mem_append.mp hm with hm1 | hm2
        · exact hcrp (by rw [hpeq]; simp [hm1])
        · exact hcr (List.mem_append_right p hm2)
      have := ih r hrlen hcrr
      rw [this]
      simp

/-- Feeding CR-free chunks one by one, starting from a terminator-free
accumulator, is the same as feeding their concatenation at once. -/
theorem feedAll_eq_feed_join (chunks : List (List Char)) (p : List Char)
    (hp1 : '\n' ∉ p) (hp2 : '\r' ∉ p) (hc : '\r' ∉ chunks.flatten) :
    feedAll p chunks = feed p chunks.flatten := by
  induction chunks generalizing p with
  | nil =>
    have hstep : extractStep p = none := extractStep_eq_none_iff.mpr ⟨hp1, hp2⟩
    simp [feedAll, feed, extractLoop_of_none hstep]
  | cons c cs ih =>
    have hcc : '\r' ∉ c := by
      intro hm
      exact hc (by simp [List.flatten_cons, List.mem_append, hm])
    have hccs : '\r' ∉ cs.flatten := by
      intro hm
      exact hc (by simp [List.flatten_cons, List.mem_append, hm])
    have hpc : '\r' ∉ (p ++ c) ++ cs.flatten := by
      intro hm
      rcases List.mem_append.mp hm with hm1 | hm2
      · rcases List.mem_append.mp hm1 with hm3 | hm4
        · exact hp2 hm3
        · exact hcc hm4
      · exact hccs hm2
    have hleft := extractLoop_leftover_no_term (p ++ c)
    have key := extractLoop_append (p ++ c) cs.flatten hpc
    have ihres := ih (extractLoop (p ++ c)).2 hleft.1 hleft.2 hccs
    show ((feed p c).1 ++ (feedAll (feed p c).2 cs).1,
      (feedAll (feed p c).2 cs).2) = feed p ((c :: cs).flatten)
    have hfeed2 : (feed p c).2 = (extractLoop (p ++ c)).2 := rfl
    rw [hfeed2, ihres]
    simp only [feed, List.flatten_cons]
    have hassoc : p ++ (c ++ cs.flatten) = (p ++ c) ++ cs.flatten := by simp
    rw [hassoc, key]
    simp [List.filterMap_append]

/-- Chunk invariance at the level of decoded text: for character input
containing no carriage return, ragged chunking does not change the
emitted events or the final accumulator. -/
theorem feedAll_chunk_invariance_chars (chunks : List (List Char))
    (hc : '\r' ∉ chunks.flatten) :
    feedAll [] chunks = feedAll [] [chunks.flatten] := by
  rw [feedAll_eq_feed_join chunks [] (by simp) (by simp) hc]
  show feed [] chunks.flatten =
    ((feed [] chunks.flatten).1 ++ (feedAll (feed [] chunks.flatten).2 []).1,
      (feedAll (feed [] chunks.flatten).2 []).2)
  simp [feedAll]

/-- On ASCII bytes the per-chunk decoder is the byte-wise character
embedding. -/
theorem utf8Decode_ascii (bs : List ℕ) (h : ∀ b ∈ bs, b < 0x80) :
    utf8Decode bs = bs.map (fun b => Char.ofNat b) := by
  unfold utf8Decode
  suffices hs : ∀ (fuel : ℕ) (bs : List ℕ), bs.length ≤ fuel →
      (∀ b ∈ bs, b < 0x80) →
      utf8DecodeF fuel bs = bs.map (fun b => Char.ofNat b) by
    exact hs bs.length bs le_rfl h
  intro fuel
  induction fuel with
  | zero =>
    intro bs hlen _
    cases bs with
    | nil => rfl
    | cons b rest => simp at hlen
  | succ n ih =>
    intro bs hlen hb
    cases bs with
    | nil => rfl
    | cons b rest =>
      have hb0 : b < 0x80 := hb b (List.mem_cons_self b rest)
      simp only [utf8DecodeF]
      rw [if_pos hb0]
      rw [ih rest (by simp at hlen; omega)
        (fun x hx => hb x (List.mem_cons_of_mem b hx))]
      simp

/-- C3 (amended).  For byte input consisting of ASCII bytes (each byte
below `0x80`, so every byte is a complete UTF-8 sequence) and containing
no carriage return, feeding the bytes to the framer in arbitrarily small
chunks (including one byte at a time) emits exactly the same event
sequence, and leaves the same accumulator, as feeding the whole byte
sequence as a single chunk — for any placement of LF terminators and
`data:` prefix tokens. -/
theorem framer_chunk_invariance (chunks : List (List ℕ))
    (hascii : ∀ b ∈ chunks.flatten, b < 0x80)
    (hcr : (0x0D : ℕ) ∉ chunks.flatten) :
    feedAllBytes [] chunks = feedAllBytes [] [chunks.flatten] := by
  unfold feedAllBytes
  have hdec : ∀ c ∈ chunks, utf8Decode c = c.map (fun b => Char.ofNat b) := by
    intro c hc
    exact utf8Decode_ascii c
      (fun b hb => hascii b (List.mem_flatten.mpr ⟨c, hc, hb⟩))
  have h1 : chunks.map utf8Decode =
      chunks.map (List.map (fun b => Char.ofNat b)) :=
    List.map_congr_left hdec
  have h2 : utf8Decode chunks.flatten =
      chunks.flatten.map (fun b => Char.ofNat b) :=
    utf8Decode_ascii _ hascii
  have h3 : (chunks.map (List.map (fun b => Char.ofNat b))).flatten =
      chunks.flatten.map (fun b => Char.ofNat b) :=
    (List.map_flatten _ _).symm
  have h4 : '\r' ∉ (chunks.map (List.map (fun b => Char.ofNat b))).flatten := by
    rw [h3]
    intro hm
    obtain ⟨b, hb, hbe⟩ := List.mem_map.mp hm
    have hlt := hascii b hb
    have htn : (Char.ofNat b).toNat = b := by
      unfold Char.ofNat
      rw [dif_pos (by constructor; omega)]
      rfl
    rw [hbe] at htn
    have h13 : Char.toNat '\r' = 13 := rfl
    rw [h13] at htn
    rw [← htn] at hb
    exact hcr hb
  rw [h1]
  simp only [List.map_cons, List.map_nil]
  rw [h2, ← h3]
  exact feedAll_chunk_invariance_chars _ h4

/-- Closed instance of C3 (amended): the ASCII bytes of `"data:ping\nx"`
fed in four ragged chunks equal the single-chunk feed. -/
theorem framer_chunk_invariance_witness :
    feedAllBytes []
        [[100, 97], [116, 97, 58, 112], [105, 110, 103, 10], [120]] =
      feedAllBytes []
        [(([[100, 97], [116, 97, 58, 112], [105, 110, 103, 10],
            [120]] : List (List ℕ)).flatten)] :=
  framer_chunk_invariance _ (by decide) (by decide)

/-- Counterexample to C3 as stated, at the byte level, in two ways.
With a carriage return followed later by a newline, the bytes of
`"a\rb\n"` as one chunk yield the single event `"a\rb"` (the loop cuts
at the first newline even though a carriage return occurs earlier),
while the same bytes fed one at a time yield the two events `"a"` and
`"b"`.  And because each chunk is decoded separately with
`errors="replace"`, the UTF-8 bytes `C3 A9 0A` (`"é\n"`) as one chunk
yield the event `"é"`, while fed one byte at a time each half of the
split two-byte sequence becomes a replacement character, yielding one
event of two `U+FFFD`s. -/
theorem framer_chunk_invariance_counterexample :
    (feedAllBytes [] [[97, 13, 98, 10]]).1 = [['a', '\r', 'b']] ∧
    (feedAllBytes [] [[97], [13], [98], [10]]).1 = [['a'], ['b']] ∧
    (feedAllBytes [] [[97, 13, 98, 10]]).1 ≠
      (feedAllBytes [] [[97], [13], [98], [10]]).1 ∧
    (feedAllBytes [] [[0xC3, 0xA9, 0x0A]]).1 = [[Char.ofNat 0xE9]] ∧
    (feedAllBytes [] [[0xC3], [0xA9], [0x0A]]).1 = [[replChar, replChar]] ∧
    (feedAllBytes [] [[0xC3, 0xA9, 0x0A]]).1 ≠
      (feedAllBytes [] [[0xC3], [0xA9], [0x0A]]).1 := by
  refine ⟨by decide, by decide, by decide, by decide, by decide, by decide⟩

theorem head?_dropWhile_not (f : Char → Bool) (l : List Char) :
    ∀ c, ((l.dropWhile f).head? = some c) → f c = false := by
  induction l with
  | nil => intro c h; simp at h
  | cons a as ih =>
    intro c h
    by_cases ha : f a
    · rw [List.dropWhile_cons_of_pos ha] at h
      exact ih c h
    · rw [List.dropWhile_cons_of_neg ha] at h
      simp only [List.head?_cons, Option.some.injEq] at h
      rw [← h]
      exact Bool.of_not_eq_true ha

theorem rstripTerm_getLast {l : List Char} {c : Char}
    (h : (rstripTerm l).getLast? = some c) : isTermChar c = false := by
  unfold rstripTerm at h
  rw [List.getLast?_reverse] at h
  exact head?_dropWhile_not isTermChar l.reverse c h

theorem getLast?_of_suffix {l s : List Char} (hs : s <:+ l) (hne : s ≠ []) :
    s.getLast? = l.getLast? := by
  obtain ⟨t, rfl⟩ := hs
  exact (List.getLast?_append_of_ne_nil t hne).symm

theorem stripData_suffix (l : List Char) : stripData l <:+ l := by
  unfold stripData
  by_cases hpre : dataPrefix.isPrefixOf l
  · rw [if_pos hpre]
    exact List.IsSuffix.trans (List.dropWhile_suffix isPySpace)
      (List.drop_suffix 5 l)
  · rw [if_neg hpre]

/-- Every emitted event is free of a trailing CR or LF: `_run` strips
them before the prefix handling, which only removes leading
characters. -/
theorem processLine_no_trailing_term {raw ev : List Char} {c : Char}
    (h : processLine raw = some ev) (hc : ev.getLast? = some c) :
    isTermChar c = false := by
  unfold processLine at h
  by_cases he : (stripData (rstripTerm raw)).isEmpty
  · rw [if_pos he] at h; exact absurd h (by simp)
  · rw [if_neg he] at h
    simp only [Option.some.injEq] at h
    rw [← h] at hc
    have hne : stripData (rstripTerm raw) ≠ [] := by
      intro hev
      rw [hev] at he
      simp at he
    rw [getLast?_of_suffix (stripData_suffix (rstripTerm raw)) hne] at hc
    exact rstripTerm_getLast hc

/-- Modelled from the spec's splitting sentence, for comparison with the
code: cut the accumulator at the first terminator character — newline or
carriage return, whichever of the two occurs earliest. -/
def splitAtFirstTerm : List Char → Option (List Char × List Char)
  | [] => none
  | c :: cs =>
    if isTermChar c then some ([], cs)
    else
      match splitAtFirstTerm cs with
      | none => none
      | some (l, r) => some (c :: l, r)

/-- Counterexample to C4 as stated: on the accumulator `"a\rb\n"` the
code cuts at the first newline because a newline is present anywhere,
even though the carriage return occurs earlier, so the first extracted
line is `"a\rb"`; the earliest-terminator rule of the claim would
extract `"a"` and leave `"b\n"`. -/
theorem extract_line_splitting_counterexample :
    extractStep ['a', '\r', 'b', '\n'] = some (['a', '\r', 'b'], []) ∧
    splitAtFirstTerm ['a', '\r', 'b', '\n'] = some (['a'], ['b', '\n']) ∧
    extractStep ['a', '\r', 'b', '\n'] ≠
      splitAtFirstTerm ['a', '\r', 'b', '\n'] :=
  ⟨by decide, by decide, by decide⟩

/-- C4 (amended).  When the accumulator contains a terminator, the
framer cuts at the first newline if the accumulator contains any
newline, and only otherwise at the first carriage return; it repeats
one extraction at a time until no terminator remains (the final
accumulator holds neither LF nor CR); every line the pipeline emits has
its trailing CR/LF stripped. -/
theorem extract_line_splitting (p : List Char) :
    ('\n' ∈ p → ∃ l r, extractStep p = some (l, r) ∧
        p = l ++ '\n' :: r ∧ '\n' ∉ l) ∧
    ('\n' ∉ p → '\r' ∈ p → ∃ l r, extractStep p = some (l, r) ∧
        p = l ++ '\r' :: r ∧ '\r' ∉ l) ∧
    (∀ l r, extractStep p = some (l, r) →
        extractLoop p = (l :: (extractLoop r).1, (extractLoop r).2)) ∧
    ('\n' ∉ (extractLoop p).2 ∧ '\r' ∉ (extractLoop p).2) ∧
    (∀ raw ev c, processLine raw = some ev → ev.getLast? = some c →
        isTermChar c = false) := by
  refine ⟨?_, ?_, ?_, extractLoop_leftover_no_term p, ?_⟩
  · intro hn
    cases hs : splitAtFirst '\n' p with
    | none => exact absurd (splitAtFirst_eq_none_iff.mp hs) (by simp [hn])
    | some lr =>
      obtain ⟨l, r⟩ := lr
      obtain ⟨hpeq, hnl⟩ := splitAtFirst_eq_some_iff.mp hs
      refine ⟨l, r, ?_, hpeq, hnl⟩
      rw [extractStep, if_pos hn]
      exact hs
  · intro hn hr
    cases hs : splitAtFirst '\r' p with
    | none => exact absurd (splitAtFirst_eq_none_iff.mp hs) (by simp [hr])
    | some lr =>
      obtain ⟨l, r⟩ := lr
      obtain ⟨hpeq, hnl⟩ := splitAtFirst_eq_some_iff.mp hs
      refine ⟨l, r, ?_, hpeq, hnl⟩
      rw [extractStep, if_neg hn, if_pos hr]
      exact hs
  · intro l r h
    exact extractLoop_of_some h
  · intro raw ev c h hc
    exact processLine_no_trailing_term h hc

/-- Closed instance of C4 (amended): one extraction on `"a\nb"`, and the
stripping guarantee on the event emitted for `"ping\r\n"`. -/
theorem extract_line_splitting_witness :
    extractLoop ['a', '\n', 'b'] =
      (['a'] :: (extractLoop ['b']).1, (extractLoop ['b']).2) ∧
    isTermChar 'g' = false :=
  ⟨(extract_line_splitting ['a', '\n', 'b']).2.2.1 ['a'] ['b'] (by decide),
   (extract_line_splitting []).2.2.2.2 ['p', 'i', 'n', 'g', '\r', '\n']
     ['p', 'i', 'n', 'g'] 'g' (by decide) (by decide)⟩

/-- C6.  Per-line processing: the line `"data:ping"` yields exactly the
event `"ping"`; the line `"data:"` yields no event; an empty line yields
no event. -/
theorem line_processing_examples :
    processLine ['d', 'a', 't', 'a', ':', 'p', 'i', 'n', 'g'] =
      some ['p', 'i', 'n', 'g'] ∧
    processLine ['d', 'a', 't', 'a', ':'] = none ∧
    processLine [] = none :=
  ⟨by decide, by decide, by decide⟩

/-! ## Listener Registry

`add_listener` creates a fresh unbounded `asyncio.Queue` and adds it to
the set `_ui_queues`; `remove_listener` discards it; the broadcast block
of `_run` (uart_reader.py lines 141-147) appends the accepted line to
every queue currently in the set.  Queues are identified by numeric
handles; `queues` maps every handle to the contents of its queue. -/

/-- One interaction with the registry: register a fresh listener, remove
a listener, or accept one line (the broadcast). -/
inductive RegOp where
  | addL (i : ℕ)
  | removeL (i : ℕ)
  | pushE (e : String)
  deriving DecidableEq

/-- Registry state: the set of registered handles (duplicate-free by
construction, like a Python set) and each handle's queue contents. -/
structure RegState where
  registered : List ℕ
  queues : ℕ → List String

/-- Effect of one operation: `add_listener` (fresh empty queue, set
add), `remove_listener` (set discard), or the broadcast of one accepted
line to every registered queue. -/
def regStep (s : RegState) : RegOp → RegState
  | .addL i =>
    { registered := if i ∈ s.registered then s.registered else i :: s.registered,
      queues := fun j => if j = i then [] else s.queues j }
  | .removeL i =>
    { registered := s.registered.filter (fun j => j != i),
      queues := s.queues }
  | .pushE e =>
    { registered := s.registered,
      queues := fun j =>
        if j ∈ s.registered then s.queues j ++ [e] else s.queues j }

/-- Running a sequence of interleaved operations. -/
def regRun (s : RegState) (ops : List RegOp) : RegState :=
  ops.foldl regStep s

/-- The lines a listener with handle `i` should observe, per the spec:
exactly those pushed at a moment when `i` is registered, in push order.
`reg` records whether `i` is registered at the start. -/
def deliveredTo (i : ℕ) : List RegOp → Bool → List String
  | [], _ => []
  | .addL j :: rest, reg =>
    deliveredTo i rest (if j = i then true else reg)
  | .removeL j :: rest, reg =>
    deliveredTo i rest (if j = i then false else reg)
  | .pushE e :: rest, reg =>
    (if reg then [e] else []) ++ deliveredTo i rest reg

theorem regRun_queues (ops : List RegOp) (s : RegState) (i : ℕ)
    (hfresh : RegOp.addL i ∉ ops) :
    (regRun s ops).queues i =
      s.queues i ++ deliveredTo i ops (decide (i ∈ s.registered)) := by
  induction ops generalizing s with
  | nil => simp [regRun, deliveredTo]
  | cons op rest ih =>
    have hfr : RegOp.addL i ∉ rest := fun hm => hfresh (List.mem_cons_of_mem op hm)
    cases op with
    | addL j =>
      have hji : j ≠ i := by
        intro hji
        exact hfresh (by rw [hji]; exact List.mem_cons_self _ _)
      show (regRun (regStep s (.addL j)) rest).queues i = _
      rw [ih _ hfr]
      have hq : (regStep s (.addL j)).queues i = s.queues i := by
        simp [regStep, Ne.symm hji]
      have hiff : i ∈ (regStep s (.addL j)).registered ↔ i ∈ s.registered := by
        simp only [regStep]
        by_cases hj : j ∈ s.registered
        · rw [if_pos hj]
        · rw [if_neg hj]
          simp [List.mem_cons, Ne.symm hji]
      rw [hq]
      simp only [hiff]
      simp [deliveredTo, hji]
    | removeL j =>
      show (regRun (regStep s (.removeL j)) rest).queues i = _
      rw [ih _ hfr]
      have hq : (regStep s (.removeL j)).queues i = s.queues i := rfl
      rw [hq]
      by_cases hji : j = i
      · subst hji
        have hni : j ∉ (regStep s (.removeL j)).registered := by
          simp [regStep, List.mem_filter]
        rw [decide_eq_false hni]
        simp [deliveredTo]
      · have hiff : i ∈ (regStep s (.removeL j)).registered ↔
            i ∈ s.registered := by
          simp only [regStep]
          simp [List.mem_filter, Ne.symm hji]
        simp only [hiff]
        simp [deliveredTo, hji]
    | pushE e =>
      show (regRun (regStep s (.pushE e)) rest).queues i = _
      rw [ih _ hfr]
      have hreg : (regStep s (.pushE e)).registered = s.registered := rfl
      rw [hreg]
      by_cases hi : i ∈ s.registered
      · have hq : (regStep s (.pushE e)).queues i = s.queues i ++ [e] := by
          simp [regStep, hi]
        rw [hq]
        simp [deliveredTo, hi]
      · have hq : (regStep s (.pushE e)).queues i = s.queues i := by
          simp [regStep, hi]
        rw [hq]
        simp [deliveredTo, hi]

/-- C5.  For every interleaving of `add_listener`, `remove_listener` and
line pushes: (a) a listener registered before the run and never re-added
ends with exactly its previous contents followed by the lines pushed
while it was registered, in push order — so a line pushed after its
removal and before any re-registration is never delivered to it; (b) a
listener freshly added mid-run receives exactly the lines pushed after
its registration while it stays registered: in particular it never
observes a push that preceded its `add_listener`. -/
theorem listener_delivery (ops1 ops2 : List RegOp) (s : RegState) (i : ℕ) :
    (RegOp.addL i ∉ ops2 →
      (regRun s ops2).queues i =
        s.queues i ++ deliveredTo i ops2 (decide (i ∈ s.registered))) ∧
    (RegOp.addL i ∉ ops2 →
      (regRun s (ops1 ++ RegOp.addL i :: ops2)).queues i =
        deliveredTo i ops2 true) := by
  constructor
  · intro hfresh
    exact regRun_queues ops2 s i hfresh
  · intro hfresh
    show ((ops1 ++ RegOp.addL i :: ops2).foldl regStep s).queues i = _
    rw [List.foldl_append, List.foldl_cons]
    set s1 := ops1.foldl regStep s with hs1
    have hq0 : (regStep s1 (.addL i)).queues i = [] := by simp [regStep]
    have hreg0 : decide (i ∈ (regStep s1 (.addL i)).registered) = true := by
      simp only [regStep]
      by_cases hi : i ∈ s1.registered
      · simp [hi]
      · simp [hi]
    have := regRun_queues ops2 (regStep s1 (.addL i)) i hfresh
    rw [hq0, hreg0] at this
    simpa [regRun] using this

/-- Closed instance of C5: the listener `0` is added after a first push,
sees the one line pushed while registered, and misses the line pushed
after its removal. -/
theorem listener_delivery_witness :
    (regRun ⟨[], fun _ => []⟩
        [RegOp.pushE "e0", RegOp.addL 0, RegOp.pushE "e1",
         RegOp.removeL 0, RegOp.pushE "e2"]).queues 0 = ["e1"] := by
  have h := (listener_delivery [RegOp.pushE "e0"]
    [RegOp.pushE "e1", RegOp.removeL 0, RegOp.pushE "e2"]
    ⟨[], fun _ => []⟩ 0).2 (by decide)
  rw [show ([RegOp.pushE "e0"] ++ RegOp.addL 0 ::
      [RegOp.pushE "e1", RegOp.removeL 0, RegOp.pushE "e2"]) =
      [RegOp.pushE "e0", RegOp.addL 0, RegOp.pushE "e1",
       RegOp.removeL 0, RegOp.pushE "e2"] from rfl] at h
  rw [h]
  rfl

/-! ## Connector life cycle

The reader's operational state: the `_status` string, the stop event,
and the position of the background task (`self._task`).  `pc` tracks the
task coarsely: `notStarted` is `_task is None`, `exited` is
`_task.done()`, every other position is a live task.  The `status`
values are exactly the strings assigned in the Python code. -/

/-- The `_status` diagnostic values assigned by the reader. -/
inductive Status where
  | initialized
  | starting
  | connecting
  | connected
  | error
  | stopped
  deriving DecidableEq

/-- Position of the background task within `_run`. -/
inductive Pc where
  | notStarted
  | entry
  | loopHead
  | inTry
  | reading
  | backoff
  | exited
  deriving DecidableEq

/-- Reader state: `_status`, `_stop_event.is_set()`, task position and
`_last_error`. -/
structure RState where
  status : Status
  stopSet : Bool
  pc : Pc
  lastError : Option String
  deriving DecidableEq

/-- `self._task is not None and not self._task.done()`. -/
def taskAlive (s : RState) : Bool :=
  match s.pc with
  | .notStarted => false
  | .exited => false
  | _ => true

/-- `UartReader.ensure_running` (uart_reader.py lines 44-50): return
unchanged when a task exists and is not done; otherwise install a fresh
(cleared) stop event and create the task. -/
def ensure_running (s : RState) : RState :=
  if taskAlive s then s
  else { s with pc := .entry, stopSet := false }

/-- `UartReader.is_running` (uart_reader.py lines 64-66). -/
def is_running (s : RState) : Bool :=
  taskAlive s && !s.stopSet

/-- The `task_running` field of `get_diagnostics` (uart_reader.py
line 77): `_task is not None and not _task.done()`, without consulting
the stop event. -/
def diag_task_running (s : RState) : Bool :=
  taskAlive s

/-- An exception raised inside the connect/read `try` body. -/
inductive RunExc where
  | cancelled
  | other (msg : String)
  deriving DecidableEq

/-- The `except` clauses of `_run` (uart_reader.py lines 149-155): a
`CancelledError` is re-raised; any other exception is absorbed — status
becomes `error`, its text is recorded, and the loop sleeps 1 second
before retrying.  The successful result carries the new state and the
backoff duration in seconds. -/
def handleExc (s : RState) : RunExc → Except RunExc (RState × ℕ)
  | .cancelled => .error .cancelled
  | .other msg =>
    .ok ({ s with status := .error, lastError := some msg, pc := .backoff }, 1)

/-- C7.  `ensure_running` is idempotent: while a task is active (created
and not done) it changes nothing, so at most one background task is ever
installed per reader; when no task is active it creates exactly one
(fresh stop event, task at its entry point); running it twice equals
running it once. -/
theorem ensure_running_idempotent (s : RState) :
    (taskAlive s = true → ensure_running s = s) ∧
    (taskAlive s = false →
      taskAlive (ensure_running s) = true ∧
      (ensure_running s).pc = .entry ∧
      (ensure_running s).stopSet = false) ∧
    ensure_running (ensure_running s) = ensure_running s := by
  refine ⟨?_, ?_, ?_⟩
  · intro h
    simp [ensure_running, h]
  · intro h
    rw [ensure_running, if_neg (by simp [h])]
    exact ⟨rfl, rfl, rfl⟩
  · by_cases h : taskAlive s = true
    · simp [ensure_running, h]
    · have h2 : ensure_running s = { s with pc := .entry, stopSet := false } := by
        rw [ensure_running, if_neg (by simp [h])]
      rw [h2]
      have h3 : taskAlive { s with pc := Pc.entry, stopSet := false } = true := rfl
      rw [ensure_running, if_pos h3]

/-- Closed instance of C7: starting from a fresh reader, one
`ensure_running` installs the task and a second one is a no-op. -/
theorem ensure_running_idempotent_witness :
    ensure_running (ensure_running ⟨.initialized, false, .notStarted, none⟩) =
      ensure_running ⟨.initialized, false, .notStarted, none⟩ :=
  (ensure_running_idempotent ⟨.initialized, false, .notStarted, none⟩).2.2

/-- C10.  `is_running` is true exactly when a task exists, is not done,
and the stop event is not set; hence `is_running` implies the
diagnostics' `task_running`, but not conversely: with the stop event set
while the cancelled task is still finishing (here: still in its read
loop), `is_running` is already false while `task_running` still reports
true. -/
theorem is_running_characterization (s : RState) :
    (is_running s = true ↔
      (s.pc ≠ .notStarted ∧ s.pc ≠ .exited) ∧ s.stopSet = false) ∧
    (is_running s = true → diag_task_running s = true) ∧
    (is_running ⟨.connected, true, .reading, none⟩ = false ∧
      diag_task_running ⟨.connected, true, .reading, none⟩ = true) := by
  refine ⟨?_, ?_, by decide, by decide⟩
  · unfold is_running taskAlive
    cases hpc : s.pc <;> simp [hpc]
  · intro h
    unfold is_running at h
    unfold diag_task_running
    exact (Bool.and_eq_true _ _ |>.mp h).1

/-- Closed instance of C10: a live, un-stopped reading task. -/
theorem is_running_characterization_witness :
    diag_task_running ⟨.connected, false, .reading, none⟩ = true :=
  (is_running_characterization ⟨.connected, false, .reading, none⟩).2.1
    (by decide)

/-- Labels for the observable moves of the reader: the two public calls
and the internal positions of `_run`. -/
inductive RLabel where
  | ensure
  | runStart
  | loopEnter
  | loopExit
  | connectOk
  | readLine
  | readStop
  | fail (msg : String)
  | backoffDone
  | stopCall
  deriving DecidableEq

/-- `stop()` (uart_reader.py lines 184-194): set the stop event, cancel
the task when one exists (it ends within the 2 s grace wait), record
status `stopped`. -/
def stopStep (s : RState) : RState :=
  { s with
    stopSet := true
    status := .stopped
    pc := (if s.pc = .notStarted then .notStarted else .exited) }

/-- Small-step semantics of the reader: `ensure_running` and `stop()`
calls interleaved with the steps of `_run` — entry (`status = starting`),
the `while not stop` check, a connection attempt (success sets
`connected` and clears the error; failure goes through `handleExc`),
the read loop (which breaks back to the check when the stop event is
seen), and the end of the 1 s backoff sleep. -/
inductive RStep : RLabel → RState → RState → Prop where
  | ensure (s : RState) : RStep .ensure s (ensure_running s)
  | runStart (s : RState) (h : s.pc = .entry) :
      RStep .runStart s { s with status := .starting, pc := .loopHead }
  | loopEnter (s : RState) (h : s.pc = .loopHead) (hstop : s.stopSet = false) :
      RStep .loopEnter s { s with status := .connecting, pc := .inTry }
  | loopExit (s : RState) (h : s.pc = .loopHead) (hstop : s.stopSet = true) :
      RStep .loopExit s { s with pc := .exited }
  | connectOk (s : RState) (h : s.pc = .inTry) :
      RStep .connectOk s
        { s with status := .connected, lastError := none, pc := .reading }
  | readLine (s : RState) (h : s.pc = .reading) : RStep .readLine s s
  | readStop (s : RState) (h : s.pc = .reading) (hstop : s.stopSet = true) :
      RStep .readStop s { s with pc := .loopHead }
  | fail (s : RState) (msg : String) (h : s.pc = .inTry ∨ s.pc = .reading)
      (s' : RState) (hh : handleExc s (.other msg) = .ok (s', 1)) :
      RStep (.fail msg) s s'
  | backoffDone (s : RState) (h : s.pc = .backoff) :
      RStep .backoffDone s { s with pc := .loopHead }
  | stopCall (s : RState) : RStep .stopCall s (stopStep s)

/-- The freshly constructed reader. -/
def initState : RState := ⟨.initialized, false, .notStarted, none⟩

/-- Reachability under any sequence of moves. -/
def reaches (a b : RState) : Prop :=
  Relation.ReflTransGen (fun x y => ∃ l, RStep l x y) a b

/-- Inductive invariant of the reader: in `error` the task is sleeping
its backoff or back at the loop check; a set stop event means `stop()`
has completed; in `stopped` the task is gone, done, or at most freshly
re-created. -/
def RInv (s : RState) : Prop :=
  (s.status = .error → s.pc = .backoff ∨ s.pc = .loopHead) ∧
  (s.stopSet = true → s.status = .stopped ∧
    (s.pc = .exited ∨ s.pc = .notStarted)) ∧
  (s.status = .stopped →
    s.pc = .exited ∨ s.pc = .entry ∨ s.pc = .notStarted)

theorem rinv_init : RInv initState := by
  refine ⟨?_, ?_, ?_⟩ <;> intro h <;> simp [initState] at h ⊢

theorem rinv_step {l : RLabel} {s s' : RState}
    (hstep : RStep l s s') (hinv : RInv s) : RInv s' := by
  obtain ⟨h1, h2, h3⟩ := hinv
  cases hstep with
  | ensure s =>
    unfold ensure_running
    by_cases ha : taskAlive s = true
    · rw [if_pos ha]; exact ⟨h1, h2, h3⟩
    · rw [if_neg (by simp [ha])]
      refine ⟨?_, ?_, ?_⟩
      · intro he
        exfalso
        apply ha
        unfold taskAlive
        rcases h1 he with hb | hb <;> rw [hb]
      · intro hb
        simp at hb
      · intro hs
        right; left; rfl
  | runStart s h =>
    refine ⟨?_, ?_, ?_⟩
    · intro he; simp at he
    · intro hb
      rcases h2 hb with ⟨-, he | he⟩ <;> rw [h] at he <;> simp at he
    · intro hs; simp at hs
  | loopEnter s h hstop =>
    refine ⟨?_, ?_, ?_⟩
    · intro he; simp at he
    · intro hb; simp [hstop] at hb
    · intro hs; simp at hs
  | loopExit s h hstop =>
    rcases h2 hstop with ⟨-, he | he⟩ <;> rw [h] at he <;> simp at he
  | connectOk s h =>
    refine ⟨?_, ?_, ?_⟩
    · intro he; simp at he
    · intro hb
      rcases h2 hb with ⟨-, he | he⟩ <;> rw [h] at he <;> simp at he
    · intro hs; simp at hs
  | readLine s h =>
    exact ⟨h1, h2, h3⟩
  | readStop s h hstop =>
    rcases h2 hstop with ⟨-, he | he⟩ <;> rw [h] at he <;> simp at he
  | fail s msg h s' hh =>
    simp only [handleExc, Except.ok.injEq, Prod.mk.injEq] at hh
    rw [← hh.1]
    refine ⟨?_, ?_, ?_⟩
    · intro _; left; rfl
    · intro hb
      simp only at hb
      rcases h2 hb with ⟨-, he | he⟩ <;>
        rcases h with hp | hp <;> rw [hp] at he <;> simp at he
    · intro hs; simp at hs
  | backoffDone s h =>
    refine ⟨?_, ?_, ?_⟩
    · intro _; right; rfl
    · intro hb
      rcases h2 hb with ⟨-, he | he⟩ <;> rw [h] at he <;> simp at he
    · intro hs
      rcases h3 hs with he | he | he <;> rw [h] at he <;> simp at he
  | stopCall s =>
    refine ⟨?_, ?_, ?_⟩
    · intro he; simp [stopStep] at he
    · intro _
      refine ⟨rfl, ?_⟩
      simp only [stopStep]
      by_cases hp : s.pc = Pc.notStarted
      · rw [if_pos hp]; right; rfl
      · rw [if_neg hp]; left; rfl
    · intro _
      simp only [stopStep]
      by_cases hp : s.pc = Pc.notStarted
      · rw [if_pos hp]; right; right; rfl
      · rw [if_neg hp]; left; rfl

theorem rinv_reaches {s : RState} (h : reaches initState s) : RInv s := by
  induction h with
  | refl => exact rinv_init
  | tail _ hbc ih =>
    obtain ⟨l, hstep⟩ := hbc
    exact rinv_step hstep ih

theorem ensure_running_status (s : RState) :
    (ensure_running s).status = s.status := by
  unfold ensure_running
  split <;> rfl

/-- C9.  Exception handling in the connector loop: a deliberate
cancellation is re-raised (propagates out of the handler); every other
exception is absorbed — the status becomes `error`, the exception text
is recorded as the last error, and the loop sleeps the fixed 1-second
backoff — so no non-cancellation error ever escapes the loop; and the
task then retries: the end of the backoff returns to the loop check,
which reconnects whenever shutdown has not been requested. -/
theorem loop_error_handling (s : RState) (msg : String) :
    handleExc s .cancelled = .error .cancelled ∧
    handleExc s (.other msg) =
      .ok ({ s with status := .error, lastError := some msg, pc := .backoff },
        1) ∧
    (∀ e : RunExc, e ≠ .cancelled → ∃ s' n, handleExc s e = .ok (s', n)) ∧
    (s.pc = .backoff →
      RStep .backoffDone s { s with pc := .loopHead } ∧
      (s.stopSet = false →
        RStep .loopEnter { s with pc := .loopHead }
          { s with pc := .inTry, status := .connecting })) := by
  refine ⟨rfl, rfl, ?_, ?_⟩
  · intro e he
    cases e with
    | cancelled => exact absurd rfl he
    | other m => exact ⟨_, _, rfl⟩
  · intro hb
    refine ⟨RStep.backoffDone s hb, ?_⟩
    intro hs
    exact RStep.loopEnter { s with pc := .loopHead } rfl hs

/-- Closed instance of C9: the backoff of an errored reader ends and the
loop returns to its check. -/
theorem loop_error_handling_witness :
    RStep .backoffDone (⟨.error, false, .backoff, some "x"⟩ : RState)
      ⟨.error, false, .loopHead, some "x"⟩ :=
  ((loop_error_handling ⟨.error, false, .backoff, some "x"⟩ "x").2.2.2 rfl).1

/-- Counterexample to C8 as stated: `stopped` is not terminal under the
claim's own operation set.  From the freshly constructed reader, `stop()`
reaches `stopped`; a subsequent `ensure_running` installs a new task
(status still `stopped`), and that task's first step moves the status to
`starting` — so `stopped` is left. -/
theorem stopped_terminal_counterexample :
    RStep .stopCall initState ⟨.stopped, true, .notStarted, none⟩ ∧
    RStep .ensure (⟨.stopped, true, .notStarted, none⟩ : RState)
      ⟨.stopped, false, .entry, none⟩ ∧
    RStep .runStart (⟨.stopped, false, .entry, none⟩ : RState)
      ⟨.starting, false, .loopHead, none⟩ ∧
    (⟨.stopped, false, .entry, none⟩ : RState).status = .stopped ∧
    (⟨.starting, false, .loopHead, none⟩ : RState).status ≠ .stopped :=
  ⟨RStep.stopCall initState,
   RStep.ensure ⟨.stopped, true, .notStarted, none⟩,
   RStep.runStart ⟨.stopped, false, .entry, none⟩ rfl,
   rfl, by decide⟩

/-- C8 (amended).  In every reachable reader state (the invariant `RInv`
holds along every run from the fresh reader, last conjunct): `stopped`
is reached only by the explicit `stop()` call; it is left only when a
task freshly installed by a subsequent `ensure_running` starts running
(moving the status to `starting`), and a task is at its entry point only
because `ensure_running` was called with no live task; from `error`, the
only status changes are the retry to `connecting` — possible only while
shutdown has not been requested — or `stopped` via `stop()`. -/
theorem connector_state_machine (l : RLabel) (s s' : RState) :
    (RStep l s s' → RInv s → s.status = .stopped → s'.status ≠ .stopped →
      l = .runStart ∧ s.pc = .entry) ∧
    (RStep l s s' → s.pc ≠ .entry → s'.pc = .entry →
      l = .ensure ∧ taskAlive s = false) ∧
    (RStep l s s' → s.status ≠ .stopped → s'.status = .stopped →
      l = .stopCall) ∧
    (RStep l s s' → RInv s → s.status = .error → s'.status ≠ .error →
      (l = .loopEnter ∧ s'.status = .connecting ∧ s.stopSet = false) ∨
      (l = .stopCall ∧ s'.status = .stopped)) ∧
    (reaches initState s → RInv s) := by
  refine ⟨?_, ?_, ?_, ?_, rinv_reaches⟩
  · intro hstep hinv hstop hne
    obtain ⟨h1, h2, h3⟩ := hinv
    cases hstep with
    | ensure s => exact absurd (by rw [ensure_running_status]; exact hstop) hne
    | runStart s h => exact ⟨rfl, h⟩
    | loopEnter s h hs =>
      rcases h3 hstop with he | he | he <;> rw [h] at he <;> simp at he
    | loopExit s h hs => exact absurd hstop hne
    | connectOk s h =>
      rcases h3 hstop with he | he | he <;> rw [h] at he <;> simp at he
    | readLine s h => exact absurd hstop hne
    | readStop s h hs => exact absurd hstop hne
    | fail s msg h s' hh =>
      rcases h with hp | hp <;>
        rcases h3 hstop with he | he | he <;> rw [hp] at he <;> simp at he
    | backoffDone s h =>
      rcases h3 hstop with he | he | he <;> rw [h] at he <;> simp at he
    | stopCall s => exact absurd rfl hne
  · intro hstep hpne hpe
    cases hstep with
    | ensure s =>
      unfold ensure_running at hpe
      by_cases ha : taskAlive s = true
      · rw [if_pos ha] at hpe
        exact absurd hpe hpne
      · exact ⟨rfl, by simpa using ha⟩
    | runStart s h => simp at hpe
    | loopEnter s h hs => simp at hpe
    | loopExit s h hs => simp at hpe
    | connectOk s h => simp at hpe
    | readLine s h => exact absurd hpe hpne
    | readStop s h hs => simp at hpe
    | fail s msg h s' hh =>
      simp only [handleExc, Except.ok.injEq, Prod.mk.injEq] at hh
      rw [← hh.1] at hpe
      simp at hpe
    | backoffDone s h => simp at hpe
    | stopCall s =>
      simp only [stopStep] at hpe
      split at hpe <;> simp at hpe
  · intro hstep hsne hse
    cases hstep with
    | ensure s => exact absurd (by rw [← ensure_running_status s]; exact hse) hsne
    | runStart s h => simp at hse
    | loopEnter s h hs => simp at hse
    | loopExit s h hs => exact absurd hse hsne
    | connectOk s h => simp at hse
    | readLine s h => exact absurd hse hsne
    | readStop s h hs => exact absurd hse hsne
    | fail s msg h s' hh =>
      simp only [handleExc, Except.ok.injEq, Prod.mk.injEq] at hh
      rw [← hh.1] at hse
      simp at hse
    | backoffDone s h => exact absurd hse hsne
    | stopCall s => rfl
  · intro hstep hinv herr hne
    obtain ⟨h1, h2, h3⟩ := hinv
    cases hstep with
    | ensure s => exact absurd (by rw [ensure_running_status]; exact herr) hne
    | runStart s h =>
      rcases h1 herr with he | he <;> rw [h] at he <;> simp at he
    | loopEnter s h hs => exact Or.inl ⟨rfl, rfl, hs⟩
    | loopExit s h hs => exact absurd herr hne
    | connectOk s h =>
      rcases h1 herr with he | he <;> rw [h] at he <;> simp at he
    | readLine s h => exact absurd herr hne
    | readStop s h hs => exact absurd herr hne
    | fail s msg h s' hh =>
      simp only [handleExc, Except.ok.injEq, Prod.mk.injEq] at hh
      exact absurd (by rw [← hh.1]) hne
    | backoffDone s h => exact absurd herr hne
    | stopCall s => exact Or.inr ⟨rfl, rfl⟩

/-- Closed instance of C8 (amended): the errored reader's next status
change, taken at the loop check with no shutdown requested, is the retry
to `connecting`. -/
theorem connector_state_machine_witness :
    (RLabel.loopEnter = RLabel.loopEnter ∧
      (⟨.connecting, false, .inTry, some "x"⟩ : RState).status =
        .connecting ∧
      (⟨.error, false, .loopHead, some "x"⟩ : RState).stopSet = false) ∨
    (RLabel.loopEnter = RLabel.stopCall ∧
      (⟨.connecting, false, .inTry, some "x"⟩ : RState).status = .stopped) :=
  (connector_state_machine .loopEnter ⟨.error, false, .loopHead, some "x"⟩
      ⟨.connecting, false, .inTry, some "x"⟩).2.2.2.1
    (RStep.loopEnter ⟨.error, false, .loopHead, some "x"⟩ rfl rfl)
    ⟨fun _ => Or.inr rfl, fun hb => by simp at hb, fun hs => by simp at hs⟩
    rfl (by decide)

end BarfClient
